import Mathlib

/-!
Verification development for the voice dialogue controller.

The definitions below are shallow embeddings of the Python sources:
app/core/state.py, app/handlers/websocket_handler.py,
app/services/bedrock_service.py and app/services/polly_service.py.
Text is modelled as lists of characters; the regular-expression
operations of the sources are modelled by explicit scanning functions;
the float arithmetic of the silence-threshold computation is modelled
by exact rationals (at the reference configuration the float
computation is exact).
-/

abbrev Chars := List Char

/-- Embedding of AppState (app/core/state.py).  The threading lock only
serialises the operations, so the state is the pair of the two flags:
the private speaking flag and the interrupt event. -/
structure AppState where
  _is_bot_speaking : Bool
  interrupt_event : Bool
deriving DecidableEq

/-- AppState.is_bot_speaking (state.py line 14). -/
def AppState.is_bot_speaking (s : AppState) : Bool :=
  s._is_bot_speaking

/-- AppState.start_bot_speech (state.py line 18): sets the speaking flag
and clears the interrupt event. -/
def AppState.start_bot_speech (s : AppState) : AppState :=
  { s with _is_bot_speaking := true, interrupt_event := false }

/-- AppState.stop_bot_speech (state.py line 24): clears the speaking flag
and clears the interrupt event. -/
def AppState.stop_bot_speech (s : AppState) : AppState :=
  { s with _is_bot_speaking := false, interrupt_event := false }

/-- AppState.interrupt (state.py line 30): sets the interrupt event only
while the bot is speaking, otherwise a no-op. -/
def AppState.interrupt (s : AppState) : AppState :=
  if s.is_bot_speaking then { s with interrupt_event := true } else s

/-- AppState.was_interrupted (state.py line 35). -/
def AppState.was_interrupted (s : AppState) : Bool :=
  s.interrupt_event

/-- The operations of AppState, for reasoning about arbitrary call
sequences.  The two queries mutate nothing. -/
inductive StateOp
  | start_bot_speech
  | stop_bot_speech
  | interrupt
  | is_bot_speaking
  | was_interrupted
deriving DecidableEq

/-- Effect of one AppState operation on the state. -/
def applyOp (s : AppState) : StateOp → AppState
  | StateOp.start_bot_speech => s.start_bot_speech
  | StateOp.stop_bot_speech => s.stop_bot_speech
  | StateOp.interrupt => s.interrupt
  | StateOp.is_bot_speaking => s
  | StateOp.was_interrupted => s

/-- AppState.__init__ (state.py line 8): speaking false, event unset. -/
def initialAppState : AppState :=
  { _is_bot_speaking := false, interrupt_event := false }

/-- Run a sequence of AppState operations from the initial state. -/
def runOps (ops : List StateOp) : AppState :=
  ops.foldl applyOp initialAppState

/-- The invariant of AppState: when the speaking flag is false, the
interrupt event is clear. -/
def AppStateInv (s : AppState) : Prop :=
  s._is_bot_speaking = false → s.interrupt_event = false

theorem applyOp_preserves_inv (s : AppState) (op : StateOp) :
    AppStateInv s → AppStateInv (applyOp s op) := by
  cases op <;>
    simp [AppStateInv, applyOp, AppState.start_bot_speech,
      AppState.stop_bot_speech, AppState.interrupt, AppState.is_bot_speaking] <;>
    intro h <;> first
      | exact fun h' => h h'
      | (split <;> simp_all)

theorem foldl_preserves_inv (ops : List StateOp) :
    ∀ s : AppState, AppStateInv s → AppStateInv (ops.foldl applyOp s) := by
  induction ops with
  | nil => intro s h; exact h
  | cons op ops ih =>
    intro s h
    exact ih (applyOp s op) (applyOp_preserves_inv s op h)

theorem runOps_inv (ops : List StateOp) : AppStateInv (runOps ops) := by
  exact foldl_preserves_inv ops initialAppState (by intro _; rfl)

/-- Claim C4: for every sequence of AppState operations, whenever the
speaking flag is false, was_interrupted returns false; interrupt is a
no-op when not speaking; and start_bot_speech and stop_bot_speech each
clear the interrupt event. -/
theorem c4_turnstate_invariants :
    (∀ ops : List StateOp,
        (runOps ops)._is_bot_speaking = false →
        (runOps ops).was_interrupted = false)
    ∧ (∀ s : AppState, s._is_bot_speaking = false → AppState.interrupt s = s)
    ∧ (∀ s : AppState,
        (AppState.start_bot_speech s).interrupt_event = false
        ∧ (AppState.stop_bot_speech s).interrupt_event = false) := by
  refine ⟨fun ops h => runOps_inv ops h, fun s h => ?_, fun s => ⟨rfl, rfl⟩⟩
  simp [AppState.interrupt, AppState.is_bot_speaking, h]

/-- Witness for claim C4 at a concrete operation sequence and state. -/
theorem c4_turnstate_invariants_witness :
    (runOps [StateOp.start_bot_speech, StateOp.interrupt,
      StateOp.stop_bot_speech]).was_interrupted = false
    ∧ AppState.interrupt { _is_bot_speaking := false, interrupt_event := false }
        = { _is_bot_speaking := false, interrupt_event := false } :=
  ⟨c4_turnstate_invariants.1 _ (by decide),
   c4_turnstate_invariants.2.1 _ (by decide)⟩

/-- Python int() truncates toward zero. -/
def pyInt (q : ℚ) : ℤ :=
  if 0 ≤ q then ⌊q⌋ else ⌈q⌉

/-- The handler computes chunks_per_second = samplerate / (VAD_CHUNK_SIZE_BYTES / 2)
(websocket_handler.py line 90). -/
def chunks_per_second (samplerate frame_size : ℚ) : ℚ :=
  samplerate / (frame_size / 2)

/-- The silence-frame threshold of the end-of-utterance check
(websocket_handler.py line 91): int(chunks_per_second * silence_sec). -/
def silence_limit (samplerate frame_size silence_sec : ℚ) : ℤ :=
  pyInt (chunks_per_second samplerate frame_size * silence_sec)

/-- State of the transcription branch of the per-frame loop: the
consecutive-silence counter and whether end-of-utterance has fired. -/
structure TranscribingState where
  silence_frames : ℕ
  utterance_ended : Bool
deriving DecidableEq

/-- Effect of one silence-classified frame while transcribing
(websocket_handler.py lines 88-97): increment silence_frames, then fire
end-of-utterance once the counter reaches the limit.  After firing, the
loop leaves the transcribing branch, modelled by the state freezing. -/
def silenceFrameStep (limit : ℤ) (s : TranscribingState) : TranscribingState :=
  if s.utterance_ended then s
  else
    let n := s.silence_frames + 1
    if (n : ℤ) ≥ limit then ⟨n, true⟩ else ⟨n, false⟩

/-- Effect of one speech-classified frame while transcribing
(websocket_handler.py lines 98-99): the silence run counter resets. -/
def speechFrameStep (s : TranscribingState) : TranscribingState :=
  if s.utterance_ended then s else ⟨0, s.utterance_ended⟩

/-- Number of consecutive silence frames after which the trigger fires:
the counter is incremented before the comparison, so a limit of at most
one fires on the very first silence frame. -/
def fireThreshold (limit : ℤ) : ℕ :=
  if limit ≤ 1 then 1 else limit.toNat

theorem silenceFrameStep_not_ended (limit : ℤ) (k : ℕ) :
    silenceFrameStep limit ⟨k, false⟩ =
      if ((k + 1 : ℕ) : ℤ) ≥ limit then ⟨k + 1, true⟩ else ⟨k + 1, false⟩ := by
  simp [silenceFrameStep]

theorem silenceFrameStep_iterate (limit : ℤ) (k : ℕ) :
    (silenceFrameStep limit)^[k] ⟨0, false⟩ =
      if k < fireThreshold limit then ⟨k, false⟩ else ⟨fireThreshold limit, true⟩ := by
  have h1 : 1 ≤ fireThreshold limit := by
    unfold fireThreshold; split <;> omega
  have h2 : limit ≤ (fireThreshold limit : ℤ) := by
    unfold fireThreshold; split <;> omega
  have h3 : ∀ j : ℕ, j + 1 < fireThreshold limit → ((j + 1 : ℕ) : ℤ) < limit := by
    intro j hj; unfold fireThreshold at hj; split at hj <;> omega
  induction k with
  | zero => rw [if_pos (by omega)]; rfl
  | succ k ih =>
    rw [Function.iterate_succ_apply', ih]
    by_cases hk : k < fireThreshold limit
    · rw [if_pos hk]
      by_cases hk1 : k + 1 < fireThreshold limit
      · rw [if_pos hk1, silenceFrameStep_not_ended,
          if_neg (by have := h3 k hk1; omega)]
      · have hk1' : k + 1 = fireThreshold limit := by omega
        rw [if_neg hk1, silenceFrameStep_not_ended, if_pos (by omega), hk1']
    · rw [if_neg hk, if_neg (by omega)]
      simp [silenceFrameStep]

/-- Claim C1 (amended): while transcribing, the end-of-utterance trigger
fires after exactly the larger of 1 and int (R / (FRAME_SIZE/2) * S)
consecutive silence frames, where int truncates toward zero as in Python
-- the floor of the product for the nonnegative values in range, not its
ceiling. -/
theorem c1_silence_trigger_floor (R F S : ℚ) (k : ℕ) :
    ((silenceFrameStep (silence_limit R F S))^[k] ⟨0, false⟩).utterance_ended = true
      ↔ fireThreshold (silence_limit R F S) ≤ k := by
  rw [silenceFrameStep_iterate]
  by_cases hk : k < fireThreshold (silence_limit R F S)
  · rw [if_pos hk]
    constructor
    · intro h; simp at h
    · intro h; exact absurd h (by omega)
  · rw [if_neg hk]
    constructor
    · intro _; omega
    · intro _; rfl

/-- Counterexample to claim C1 as stated: at the reference configuration
R = 8000, FRAME_SIZE = 512 and S = 3/2, the trigger has already fired
after 46 consecutive silence frames, strictly fewer than the
ceil (R / (FRAME_SIZE/2) * S) = 47 frames the claim requires. -/
theorem c1_claim_counterexample :
    ((silenceFrameStep (silence_limit 8000 512 (3/2)))^[46]
        ⟨0, false⟩).utterance_ended = true
    ∧ (46 : ℤ) < ⌈chunks_per_second 8000 512 * (3/2)⌉ := by
  have hl : silence_limit 8000 512 (3/2) = 46 := by
    norm_num [silence_limit, pyInt, chunks_per_second]
  constructor
  · rw [hl, silenceFrameStep_iterate]
    norm_num [fireThreshold]
  · have hq : chunks_per_second 8000 512 * (3/2) = 375/8 := by
      norm_num [chunks_per_second]
    rw [hq]
    norm_num [Int.lt_ceil]

/-- VAD_CHUNK_SIZE_BYTES (websocket_handler.py line 20). -/
def VAD_CHUNK_SIZE_BYTES : ℕ := 512

/-- Fuel-indexed translation of the framing loop (websocket_handler.py
lines 69-71): while the buffer holds at least a frame, slice one frame of
N bytes off the front.  Returns the frames in order with the remaining
buffer.  The source runs with the constant N = 512; the guard 0 < N only
excludes the degenerate frame size on which the Python loop would not
terminate.  Fuel at least the buffer length makes the zero-fuel case
unreachable. -/
def drainFramesAux : ℕ → ℕ → List ℕ → List (List ℕ) × List ℕ
  | 0, _, buffer => ([], buffer)
  | fuel + 1, N, buffer =>
    if 0 < N ∧ N ≤ buffer.length then
      let rec_result := drainFramesAux fuel N (buffer.drop N)
      (buffer.take N :: rec_result.1, rec_result.2)
    else ([], buffer)

/-- The framing loop on one inbound append. -/
def drainFrames (N : ℕ) (buffer : List ℕ) : List (List ℕ) × List ℕ :=
  drainFramesAux (buffer.length + 1) N buffer

theorem drainFramesAux_fuel (fuel fuel' N : ℕ) :
    ∀ buffer : List ℕ, buffer.length < fuel → buffer.length < fuel' →
      drainFramesAux fuel N buffer = drainFramesAux fuel' N buffer := by
  induction fuel generalizing fuel' with
  | zero => intro buffer h _; omega
  | succ fuel ih =>
    intro buffer h h'
    cases fuel' with
    | zero => omega
    | succ fuel' =>
      simp only [drainFramesAux]
      by_cases hc : 0 < N ∧ N ≤ buffer.length
      · rw [if_pos hc, if_pos hc,
          ih fuel' (buffer.drop N) (by simp; omega) (by simp; omega)]
      · rw [if_neg hc, if_neg hc]

theorem drainFrames_unfold (N : ℕ) (buffer : List ℕ) :
    drainFrames N buffer =
      if 0 < N ∧ N ≤ buffer.length then
        ((buffer.take N) :: (drainFrames N (buffer.drop N)).1,
          (drainFrames N (buffer.drop N)).2)
      else ([], buffer) := by
  unfold drainFrames
  conv_lhs => rw [drainFramesAux]
  by_cases hc : 0 < N ∧ N ≤ buffer.length
  · rw [if_pos hc, if_pos hc,
      drainFramesAux_fuel buffer.length ((buffer.drop N).length + 1) N
        (buffer.drop N) (by simp; omega) (by simp)]
  · rw [if_neg hc, if_neg hc]

theorem drainFrames_small (N : ℕ) (buffer : List ℕ)
    (h : buffer.length < N) : drainFrames N buffer = ([], buffer) := by
  rw [drainFrames_unfold, if_neg (by omega)]

theorem drainFrames_rem_lt_aux (N : ℕ) (hN : 0 < N) (n : ℕ) :
    ∀ buffer : List ℕ, buffer.length ≤ n → (drainFrames N buffer).2.length < N := by
  induction n with
  | zero =>
    intro buffer hb
    rw [drainFrames_unfold, if_neg (by omega)]
    simp
    omega
  | succ n ih =>
    intro buffer hb
    rw [drainFrames_unfold]
    by_cases hc : 0 < N ∧ N ≤ buffer.length
    · rw [if_pos hc]
      exact ih (buffer.drop N) (by simp; omega)
    · rw [if_neg hc]
      simp
      omega

theorem drainFrames_rem_lt (N : ℕ) (hN : 0 < N) (buffer : List ℕ) :
    (drainFrames N buffer).2.length < N :=
  drainFrames_rem_lt_aux N hN buffer.length buffer le_rfl

/-- Concatenation of a list of byte lists / char lists. -/
def concatAll {α : Type} : List (List α) → List α
  | [] => []
  | l :: ls => l ++ concatAll ls

theorem concatAll_append {α : Type} (xs ys : List (List α)) :
    concatAll (xs ++ ys) = concatAll xs ++ concatAll ys := by
  induction xs with
  | nil => rfl
  | cons x xs ih => simp [concatAll, ih]

theorem drainFrames_partition_aux (N n : ℕ) :
    ∀ buffer : List ℕ, buffer.length ≤ n →
      concatAll (drainFrames N buffer).1 ++ (drainFrames N buffer).2 = buffer := by
  induction n with
  | zero =>
    intro buffer hb
    rw [drainFrames_unfold, if_neg (by omega)]
    rfl
  | succ n ih =>
    intro buffer hb
    rw [drainFrames_unfold]
    by_cases hc : 0 < N ∧ N ≤ buffer.length
    · rw [if_pos hc]
      simp only [concatAll, List.append_assoc]
      rw [ih (buffer.drop N) (by simp; omega)]
      exact List.take_append_drop N buffer
    · rw [if_neg hc]
      rfl

theorem drainFrames_partition (N : ℕ) (buffer : List ℕ) :
    concatAll (drainFrames N buffer).1 ++ (drainFrames N buffer).2 = buffer :=
  drainFrames_partition_aux N buffer.length buffer le_rfl

theorem drainFrames_comp_aux (N : ℕ) (hN : 0 < N) (n : ℕ) :
    ∀ x y : List ℕ, x.length ≤ n →
      drainFrames N (x ++ y) =
        ((drainFrames N x).1 ++ (drainFrames N ((drainFrames N x).2 ++ y)).1,
          (drainFrames N ((drainFrames N x).2 ++ y)).2) := by
  induction n with
  | zero =>
    intro x y hx
    have hsmall : x.length < N := by omega
    rw [drainFrames_small N x hsmall]
    simp
  | succ n ih =>
    intro x y hx
    by_cases hc : N ≤ x.length
    · rw [drainFrames_unfold N (x ++ y),
        if_pos (by refine ⟨hN, ?_⟩; simp; omega)]
      rw [drainFrames_unfold N x, if_pos ⟨hN, hc⟩]
      rw [List.take_append_of_le_length hc, List.drop_append_of_le_length hc]
      rw [ih (x.drop N) y (by simp; omega)]
      simp
    · have hsmall : x.length < N := by omega
      rw [drainFrames_small N x hsmall]
      simp

theorem drainFrames_comp (N : ℕ) (hN : 0 < N) (x y : List ℕ) :
    drainFrames N (x ++ y) =
      ((drainFrames N x).1 ++ (drainFrames N ((drainFrames N x).2 ++ y)).1,
        (drainFrames N ((drainFrames N x).2 ++ y)).2) :=
  drainFrames_comp_aux N hN x.length x y le_rfl

/-- The handler loop body across successive inbound chunks
(websocket_handler.py lines 67-71): append each raw chunk to the audio
buffer, then drain whole frames. -/
def processInboundAux (N : ℕ) (buffer : List ℕ) : List (List ℕ) → List (List ℕ) × List ℕ
  | [] => ([], buffer)
  | c :: cs =>
    let step := drainFrames N (buffer ++ c)
    let rest := processInboundAux N step.2 cs
    (step.1 ++ rest.1, rest.2)

/-- Frames and final buffer produced from a whole inbound chunk sequence,
starting from the empty audio buffer. -/
def processInbound (N : ℕ) (chunks : List (List ℕ)) : List (List ℕ) × List ℕ :=
  processInboundAux N [] chunks

theorem processInboundAux_eq_drain (N : ℕ) (hN : 0 < N) :
    ∀ (cs : List (List ℕ)) (buffer : List ℕ), buffer.length < N →
      processInboundAux N buffer cs =
        ((drainFrames N (buffer ++ concatAll cs)).1,
          (drainFrames N (buffer ++ concatAll cs)).2) := by
  intro cs
  induction cs with
  | nil =>
    intro buffer hb
    simp only [processInboundAux, concatAll, List.append_nil]
    rw [drainFrames_small N buffer hb]
  | cons c cs ih =>
    intro buffer hb
    simp only [processInboundAux, concatAll]
    rw [ih (drainFrames N (buffer ++ c)).2 (drainFrames_rem_lt N hN (buffer ++ c))]
    rw [show buffer ++ (c ++ concatAll cs) = (buffer ++ c) ++ concatAll cs by simp,
      drainFrames_comp N hN (buffer ++ c) (concatAll cs)]

/-- Claim C5: for every byte string and every partition of it into inbound
network chunks, appending the chunks and repeatedly slicing frames of N
bytes off the front yields exactly the frames obtained from delivering all
bytes in one chunk, and the trailing remainder, shorter than one frame, is
left in the buffer in both cases. -/
theorem c5_chunk_boundary_independence (N : ℕ) (chunks : List (List ℕ))
    (hN : 0 < N) :
    processInbound N chunks = processInbound N [concatAll chunks]
    ∧ (processInbound N chunks).2.length < N := by
  have h1 : processInbound N chunks =
      ((drainFrames N (concatAll chunks)).1, (drainFrames N (concatAll chunks)).2) := by
    unfold processInbound
    rw [processInboundAux_eq_drain N hN chunks [] (by simpa using hN)]
    rfl
  have h2 : processInbound N [concatAll chunks] =
      ((drainFrames N (concatAll chunks)).1, (drainFrames N (concatAll chunks)).2) := by
    unfold processInbound
    rw [processInboundAux_eq_drain N hN [concatAll chunks] [] (by simpa using hN)]
    simp [concatAll]
  refine ⟨h1.trans h2.symm, ?_⟩
  rw [h1]
  exact drainFrames_rem_lt N hN (concatAll chunks)

/-- Witness for claim C5 at frame size 3 and a concrete chunk sequence. -/
theorem c5_chunk_boundary_independence_witness :
    (0 : ℕ) < 3
    ∧ (processInbound 3 [[0, 1], [2, 3, 4], [5]] = processInbound 3 [concatAll [[0, 1], [2, 3, 4], [5]]]
        ∧ (processInbound 3 [[0, 1], [2, 3, 4], [5]]).2.length < 3) :=
  ⟨by decide, c5_chunk_boundary_independence 3 [[0, 1], [2, 3, 4], [5]] (by decide)⟩

/-- Whitespace test of the regular expressions in the sources; the texts
this system handles are ASCII, where Python \s matches exactly these
characters. -/
def isSpace (c : Char) : Bool :=
  decide (c = ' ' ∨ c = '\t' ∨ c = '\n' ∨ c = '\r' ∨ c = '\x0B' ∨ c = '\x0C')

/-- Python str.strip(): remove leading and trailing whitespace. -/
def pystrip (l : Chars) : Chars :=
  ((l.dropWhile isSpace).reverse.dropWhile isSpace).reverse

/-- Removal of every whitespace character: the comparison measure for
reconstruction of a text up to whitespace. -/
def stripWS (l : Chars) : Chars :=
  l.filter (fun c => !isSpace c)

/-- First alternative of the split pattern ([.?!]\s*|\s*,\s*|\n) of
_to_chunk_generator (bedrock_service.py line 28): one sentence-ending
mark, then greedy whitespace. -/
def matchAlt1 : Chars → Option (Chars × Chars)
  | [] => none
  | c :: r =>
    if c = '.' ∨ c = '?' ∨ c = '!' then
      some (c :: r.takeWhile isSpace, r.dropWhile isSpace)
    else none

/-- Second alternative: a comma surrounded by greedy whitespace.  Greedy
matching with backtracking succeeds exactly when the first
non-whitespace character from this position is the comma. -/
def matchAlt2 (l : Chars) : Option (Chars × Chars) :=
  match l.dropWhile isSpace with
  | c :: r =>
    if c = ',' then
      some (l.takeWhile isSpace ++ c :: r.takeWhile isSpace, r.dropWhile isSpace)
    else none
  | [] => none

/-- Third alternative: a bare newline. -/
def matchAlt3 : Chars → Option (Chars × Chars)
  | [] => none
  | c :: r => if c = '\n' then some ([c], r) else none

/-- Match of the split pattern at one position, trying the alternatives
in the order of the pattern. -/
def matchDelim (l : Chars) : Option (Chars × Chars) :=
  match matchAlt1 l with
  | some x => some x
  | none =>
    match matchAlt2 l with
    | some x => some x
    | none => matchAlt3 l

theorem matchAlt1_sound (l d r : Chars) (h : matchAlt1 l = some (d, r)) :
    d ++ r = l ∧ d ≠ [] := by
  match l with
  | [] => simp [matchAlt1] at h
  | c :: t =>
    simp only [matchAlt1] at h
    split at h
    · rw [Option.some.injEq, Prod.mk.injEq] at h
      obtain ⟨hd, hr⟩ := h
      subst hd hr
      constructor
      · simp [List.takeWhile_append_dropWhile]
      · simp
    · cases h

theorem matchAlt2_sound (l d r : Chars) (h : matchAlt2 l = some (d, r)) :
    d ++ r = l ∧ d ≠ [] := by
  unfold matchAlt2 at h
  split at h
  next c t heq =>
    split at h
    · rw [Option.some.injEq, Prod.mk.injEq] at h
      obtain ⟨hd, hr⟩ := h
      subst hd hr
      constructor
      · rw [List.append_assoc, List.cons_append,
          List.takeWhile_append_dropWhile, ← heq,
          List.takeWhile_append_dropWhile]
      · simp
    · cases h
  next => cases h

theorem matchAlt3_sound (l d r : Chars) (h : matchAlt3 l = some (d, r)) :
    d ++ r = l ∧ d ≠ [] := by
  match l with
  | [] => simp [matchAlt3] at h
  | c :: t =>
    simp only [matchAlt3] at h
    split at h
    · rw [Option.some.injEq, Prod.mk.injEq] at h
      obtain ⟨hd, hr⟩ := h
      subst hd hr
      simp
    · cases h

theorem matchDelim_sound (l d r : Chars) (h : matchDelim l = some (d, r)) :
    d ++ r = l ∧ d ≠ [] := by
  unfold matchDelim at h
  split at h
  next x heq =>
    rw [h] at heq
    exact matchAlt1_sound l d r heq
  next =>
    split at h
    next x heq =>
      rw [h] at heq
      exact matchAlt2_sound l d r heq
    next => exact matchAlt3_sound l d r h

/-- Fuel-indexed translation of re.split with the capturing pattern
([.?!]\s*|\s*,\s*|\n) (bedrock_service.py lines 28 and 40): scan left to
right, trying the pattern at each position; on a match, close the
current text part, record the delimiter part and continue after it.
Returns the alternating text/delimiter parts before the last part
together with the last text part.  Fuel above the input length makes the
zero-fuel case unreachable. -/
def reSplitAux : ℕ → Chars → Chars → List Chars × Chars
  | 0, acc, l => ([], acc.reverse ++ l)
  | fuel + 1, acc, l =>
    match matchDelim l with
    | some (d, r) =>
      let rest := reSplitAux fuel [] r
      (acc.reverse :: d :: rest.1, rest.2)
    | none =>
      match l with
      | [] => ([], acc.reverse)
      | c :: r => reSplitAux fuel (c :: acc) r

/-- re.split with the split pattern, as used on the rolling buffer:
parts[0 : len-1] and parts[len-1]. -/
def reSplit (l : Chars) : List Chars × Chars :=
  reSplitAux (l.length + 1) [] l

theorem reSplitAux_partition (fuel : ℕ) :
    ∀ (acc l : Chars), l.length < fuel →
      concatAll (reSplitAux fuel acc l).1 ++ (reSplitAux fuel acc l).2
        = acc.reverse ++ l := by
  induction fuel with
  | zero => intro acc l h; omega
  | succ fuel ih =>
    intro acc l h
    cases heq : matchDelim l with
    | some dr =>
      obtain ⟨d, r⟩ := dr
      obtain ⟨hdr, hd⟩ := matchDelim_sound l d r heq
      have hr : r.length < fuel := by
        have h1 : d.length + r.length = l.length := by
          rw [← List.length_append, hdr]
        have h2 : 1 ≤ d.length := List.length_pos.mpr hd
        omega
      simp only [reSplitAux, heq]
      simp only [concatAll, List.append_assoc]
      rw [ih [] r hr]
      simp [← hdr]
    | none =>
      cases l with
      | nil => simp [reSplitAux, heq, concatAll]
      | cons c r =>
        simp only [reSplitAux, heq]
        rw [ih (c :: acc) r (by simp at h; omega)]
        simp

theorem reSplit_partition (l : Chars) :
    concatAll (reSplit l).1 ++ (reSplit l).2 = l := by
  unfold reSplit
  rw [reSplitAux_partition (l.length + 1) [] l (by omega)]
  rfl

/-- Emission of speakable chunks from the processed parts
(bedrock_service.py lines 44-49): for each (sentence, delimiter) pair
emit strip(sentence) ++ strip(delimiter), skipping pairs whose stripped
sentence is empty; a trailing unpaired part gets the empty delimiter. -/
def emitPairs : List Chars → List Chars
  | [] => []
  | [s] => if pystrip s ≠ [] then [pystrip s] else []
  | s :: d :: rest =>
    (if pystrip s ≠ [] then [pystrip s ++ pystrip d] else []) ++ emitPairs rest

/-- Delimiters of the pairs skipped by emitPairs: their sentence part
strips to empty, and the source drops the delimiter with it. -/
def droppedDelims : List Chars → List Chars
  | [] => []
  | [_] => []
  | s :: d :: rest =>
    (if pystrip s = [] then [d] else []) ++ droppedDelims rest

/-- One iteration of the fragment loop of _to_chunk_generator
(bedrock_service.py lines 37-49): append the fragment to the rolling
buffer, split, emit the complete pairs, retain the last part. -/
def genStep (buffer frag : Chars) : List Chars × Chars :=
  let parts := reSplit (buffer ++ frag)
  (emitPairs parts.1, parts.2)

/-- The fragment loop of _to_chunk_generator (bedrock_service.py lines
30-49).  The interrupted flag models the value the shared state reports
throughout this run: a set flag breaks out before a fragment is
consumed, and empty fragments are skipped. -/
def genRun (interrupted : Bool) (buffer : Chars) : List Chars → List Chars × Chars
  | [] => ([], buffer)
  | f :: fs =>
    if interrupted then ([], buffer)
    else if f = [] then genRun interrupted buffer fs
    else
      let step := genStep buffer f
      let rest := genRun interrupted step.2 fs
      (step.1 ++ rest.1, rest.2)

/-- Delimiters dropped over a whole uninterrupted fragment loop run. -/
def genRunDropped (buffer : Chars) : List Chars → List Chars
  | [] => []
  | f :: fs =>
    if f = [] then genRunDropped buffer fs
    else
      let parts := reSplit (buffer ++ f)
      droppedDelims parts.1 ++ genRunDropped parts.2 fs

/-- _to_chunk_generator (bedrock_service.py lines 21-53): run the
fragment loop, then flush the stripped remaining buffer when it is
nonempty and the run was not interrupted. -/
def toChunkGenerator (interrupted : Bool) (frags : List Chars) : List Chars :=
  let run := genRun interrupted [] frags
  run.1 ++
    (if pystrip run.2 ≠ [] ∧ interrupted = false then [pystrip run.2] else [])

/-- Claim C7: on the uninterrupted fragment stream "Hello, " then
"world." the chunk generator emits exactly the two chunks "Hello," and
"world.", in that order. -/
theorem c7_hello_world_chunks :
    toChunkGenerator false [("Hello, ").toList, ("world.").toList]
      = [("Hello,").toList, ("world.").toList] := by
  decide

theorem filter_reverse' {α : Type} (p : α → Bool) (l : List α) :
    l.reverse.filter p = (l.filter p).reverse := by
  induction l with
  | nil => rfl
  | cons a t ih =>
    cases h : p a <;>
      simp [List.filter_append, List.filter_cons, h, ih]

theorem filter_dropWhile {α : Type} (p : α → Bool) (l : List α) :
    (l.dropWhile p).filter (fun a => !p a) = l.filter (fun a => !p a) := by
  induction l with
  | nil => rfl
  | cons a t ih =>
    cases h : p a <;>
      simp [List.dropWhile_cons, List.filter_cons, h, ih]

theorem stripWS_pystrip (l : Chars) : stripWS (pystrip l) = stripWS l := by
  unfold pystrip stripWS
  rw [filter_reverse', filter_dropWhile, filter_reverse', List.reverse_reverse,
    filter_dropWhile]

theorem pystrip_nil (l : Chars) (h : pystrip l = []) : stripWS l = [] := by
  rw [← stripWS_pystrip, h]
  rfl

theorem stripWS_append (a b : Chars) :
    stripWS (a ++ b) = stripWS a ++ stripWS b := by
  simp [stripWS]

theorem pairList_ind {P : List Chars → Prop} (h0 : P []) (h1 : ∀ s, P [s])
    (h2 : ∀ s d rest, P rest → P (s :: d :: rest)) : ∀ l, P l
  | [] => h0
  | [s] => h1 s
  | s :: d :: rest => h2 s d rest (pairList_ind h0 h1 h2 rest)

theorem emitPairs_strip :
    ∀ ps : List Chars, (∀ d ∈ droppedDelims ps, stripWS d = []) →
      stripWS (concatAll (emitPairs ps)) = stripWS (concatAll ps) := by
  refine pairList_ind ?_ ?_ ?_
  · intro _
    rfl
  · intro s _
    by_cases hs : pystrip s = []
    · rw [show emitPairs [s] = [] from by simp [emitPairs, hs]]
      show stripWS [] = stripWS (s ++ [])
      rw [List.append_nil, pystrip_nil s hs]
      rfl
    · rw [show emitPairs [s] = [pystrip s] from by simp [emitPairs, hs]]
      show stripWS (pystrip s ++ []) = stripWS (s ++ [])
      rw [List.append_nil, List.append_nil, stripWS_pystrip]
  · intro s d rest ih hdrop
    by_cases hs : pystrip s = []
    · have hd : stripWS d = [] := hdrop d (by simp [droppedDelims, hs])
      have hrest : ∀ x ∈ droppedDelims rest, stripWS x = [] := by
        intro x hx
        refine hdrop x ?_
        simp only [droppedDelims, hs, if_pos]
        exact List.mem_cons_of_mem d hx
      rw [show emitPairs (s :: d :: rest) = emitPairs rest from by
        simp [emitPairs, hs]]
      show stripWS (concatAll (emitPairs rest)) = stripWS (s ++ (d ++ concatAll rest))
      rw [ih hrest, stripWS_append, stripWS_append, pystrip_nil s hs, hd]
      rfl
    · have hrest : ∀ x ∈ droppedDelims rest, stripWS x = [] := by
        intro x hx
        refine hdrop x ?_
        simp only [droppedDelims, hs, if_neg, List.nil_append]
        exact hx
      rw [show emitPairs (s :: d :: rest)
          = (pystrip s ++ pystrip d) :: emitPairs rest from by
        simp [emitPairs, hs]]
      show stripWS ((pystrip s ++ pystrip d) ++ concatAll (emitPairs rest))
        = stripWS (s ++ (d ++ concatAll rest))
      simp only [stripWS_append, stripWS_pystrip, ih hrest, List.append_assoc]

theorem genRun_strip (fs : List Chars) :
    ∀ buffer : Chars, (∀ d ∈ genRunDropped buffer fs, stripWS d = []) →
      stripWS (concatAll (genRun false buffer fs).1 ++ (genRun false buffer fs).2)
        = stripWS (buffer ++ concatAll fs) := by
  induction fs with
  | nil =>
    intro buffer _
    simp [genRun, concatAll]
  | cons f fs ih =>
    intro buffer hdrop
    by_cases hf : f = []
    · have h1 : genRun false buffer (f :: fs) = genRun false buffer fs := by
        simp [genRun, hf]
      have h2 : ∀ x ∈ genRunDropped buffer fs, stripWS x = [] := by
        intro x hx
        refine hdrop x ?_
        simp [genRunDropped, hf]
        exact hx
      rw [h1, ih buffer h2]
      simp [concatAll, hf]
    · have hdrop1 : ∀ x ∈ droppedDelims (reSplit (buffer ++ f)).1, stripWS x = [] := by
        intro x hx
        refine hdrop x ?_
        simp [genRunDropped, hf]
        exact Or.inl hx
      have hdrop2 : ∀ x ∈ genRunDropped (reSplit (buffer ++ f)).2 fs, stripWS x = [] := by
        intro x hx
        refine hdrop x ?_
        simp [genRunDropped, hf]
        exact Or.inr hx
      have h1 : genRun false buffer (f :: fs) =
          ((genStep buffer f).1 ++ (genRun false (genStep buffer f).2 fs).1,
            (genRun false (genStep buffer f).2 fs).2) := by
        simp [genRun, hf]
      have expand : stripWS (buffer ++ concatAll (f :: fs))
          = stripWS (concatAll (reSplit (buffer ++ f)).1)
            ++ stripWS ((reSplit (buffer ++ f)).2 ++ concatAll fs) := by
        conv_lhs => rw [show concatAll (f :: fs) = f ++ concatAll fs from rfl,
          ← List.append_assoc, ← reSplit_partition (buffer ++ f)]
        rw [List.append_assoc, stripWS_append]
      rw [h1, expand]
      show stripWS (concatAll ((genStep buffer f).1 ++ (genRun false (genStep buffer f).2 fs).1)
          ++ (genRun false (genStep buffer f).2 fs).2) = _
      rw [concatAll_append, List.append_assoc, stripWS_append]
      rw [show (genStep buffer f).1 = emitPairs (reSplit (buffer ++ f)).1 from rfl]
      rw [emitPairs_strip (reSplit (buffer ++ f)).1 hdrop1]
      rw [ih (genStep buffer f).2 (by exact hdrop2)]
      rfl

/-- Claim C6 (amended): when no interruption occurs, concatenating all
chunks the generator emits for one turn reconstructs the concatenation
of the input fragments up to whitespace -- both sides agree after
deleting every whitespace character -- provided the run drops no
delimiter carrying non-whitespace (a delimiter is dropped exactly when
its preceding split segment strips to empty; such a dropped punctuation
delimiter is lost from the output). -/
theorem c6_reconstruction (frags : List Chars)
    (h : ∀ d ∈ genRunDropped [] frags, stripWS d = []) :
    stripWS (concatAll (toChunkGenerator false frags))
      = stripWS (concatAll frags) := by
  have hg := genRun_strip frags [] h
  rw [List.nil_append] at hg
  unfold toChunkGenerator
  show stripWS (concatAll ((genRun false [] frags).1 ++
      (if pystrip (genRun false [] frags).2 ≠ [] ∧ false = false
        then [pystrip (genRun false [] frags).2] else []))) = stripWS (concatAll frags)
  by_cases hb : pystrip (genRun false [] frags).2 = []
  · rw [if_neg (by simp [hb])]
    rw [List.append_nil]
    rw [stripWS_append, pystrip_nil _ hb, List.append_nil] at hg
    exact hg
  · rw [if_pos ⟨hb, rfl⟩]
    rw [concatAll_append]
    show stripWS (concatAll (genRun false [] frags).1
        ++ (pystrip (genRun false [] frags).2 ++ [])) = stripWS (concatAll frags)
    rw [List.append_nil, stripWS_append, stripWS_pystrip, ← stripWS_append]
    exact hg

/-- Witness for claim C6 at the concrete uninterrupted stream
"Hello, " then "world.". -/
theorem c6_reconstruction_witness :
    (∀ d ∈ genRunDropped [] [("Hello, ").toList, ("world.").toList], stripWS d = [])
    ∧ stripWS (concatAll (toChunkGenerator false
        [("Hello, ").toList, ("world.").toList]))
      = stripWS (concatAll [("Hello, ").toList, ("world.").toList]) :=
  ⟨by decide, c6_reconstruction _ (by decide)⟩

/-- Counterexample to claim C6 as stated: on the uninterrupted stream
consisting of the single fragment "Hi.. Bye" the generator emits "Hi."
and "Bye"; the second sentence mark is dropped, so the concatenation of
the chunks differs from the input even after deleting every whitespace
character -- no whitespace-only transformation reconstructs it. -/
theorem c6_claim_counterexample :
    toChunkGenerator false [("Hi.. Bye").toList]
      = [("Hi.").toList, ("Bye").toList]
    ∧ stripWS (concatAll (toChunkGenerator false [("Hi.. Bye").toList]))
      ≠ stripWS (concatAll [("Hi.. Bye").toList]) := by
  decide

/-- Scan for the first closing asterisk: the suffix after it, when one
exists. -/
def findClose : Chars → Option Chars
  | [] => none
  | c :: r => if c = '*' then some r else findClose r

/-- Fuel-indexed translation of re.sub with the pattern \*[^*]*\* and
empty replacement (polly_service.py line 34): scan left to right; at an
asterisk with a later closing asterisk, delete through the closing one
and continue after it; an asterisk without a closing one is kept along
with the rest.  Fuel at least the input length makes the zero-fuel case
unreachable. -/
def removeAstAux : ℕ → Chars → Chars
  | 0, l => l
  | fuel + 1, l =>
    match l with
    | [] => []
    | c :: r =>
      if c = '*' then
        match findClose r with
        | some after => removeAstAux fuel after
        | none => c :: r
      else c :: removeAstAux fuel r

/-- re.sub of the asterisk-section pattern with the empty string. -/
def removeAst (l : Chars) : Chars :=
  removeAstAux l.length l

theorem findClose_length (l r : Chars) (h : findClose l = some r) :
    r.length < l.length := by
  induction l generalizing r with
  | nil => cases h
  | cons c t ih =>
    unfold findClose at h
    split at h
    · cases h
      simp
    · have := ih r h
      simp
      omega

theorem findClose_none (l : Chars) (h : findClose l = none) : '*' ∉ l := by
  induction l with
  | nil => simp
  | cons c t ih =>
    unfold findClose at h
    split at h
    · cases h
    · intro hm
      rcases List.mem_cons.mp hm with h1 | h2
      · exact absurd h1.symm (by assumption)
      · exact ih h h2

theorem removeAstAux_count (fuel : ℕ) :
    ∀ l : Chars, l.length ≤ fuel → (removeAstAux fuel l).count '*' ≤ 1 := by
  induction fuel with
  | zero =>
    intro l h
    have : l = [] := List.length_eq_zero.mp (by omega)
    subst this
    simp [removeAstAux]
  | succ fuel ih =>
    intro l h
    match l with
    | [] => simp [removeAstAux]
    | c :: r =>
      simp only [removeAstAux]
      by_cases hc : c = '*'
      · rw [if_pos hc]
        cases hfc : findClose r with
        | some after =>
          have h1 : after.length < r.length := findClose_length r after hfc
          simp only []
          exact ih after (by simp at h; omega)
        | none =>
          simp only []
          have hr : '*' ∉ r := findClose_none r hfc
          rw [List.count_cons]
          rw [List.count_eq_zero.mpr hr]
          simp [hc]
      · rw [if_neg hc]
        rw [List.count_cons]
        have := ih r (by simp at h; omega)
        simp [hc]
        omega

theorem removeAst_count (l : Chars) : (removeAst l).count '*' ≤ 1 :=
  removeAstAux_count l.length l le_rfl

/-- One synthesis request of PollyService.speak_text: the cleaned text
submitted to synthesize_speech and whether the synthesis call succeeded
(any synthesis error is caught and logged inside speak_text and does not
propagate to the caller). -/
structure SynthCall where
  text : Chars
  ok : Bool
deriving DecidableEq

/-- PollyService.speak_text (polly_service.py lines 34-45), observed
through its synthesis requests: remove every asterisk section from the
text; when the remainder strips to empty, return without any synthesis
call; otherwise submit the cleaned text once.  The synthFails parameter
models which texts the synthesis collaborator fails on. -/
def speak_text_calls (synthFails : Chars → Bool) (text : Chars) : List SynthCall :=
  let cleaned := removeAst text
  if pystrip cleaned = [] then []
  else [{ text := cleaned, ok := !synthFails cleaned }]

/-- Claim C10: before any chunk text reaches speech synthesis every
asterisk-delimited section is removed from it -- the cleaned text that
is submitted never contains a substring of the form asterisk,
non-asterisks, asterisk -- and a chunk whose cleaned text strips to
empty is skipped entirely, with no synthesis call. -/
theorem c10_asterisk_cleaning (synthFails : Chars → Bool) (text : Chars) :
    (pystrip (removeAst text) = [] → speak_text_calls synthFails text = [])
    ∧ (∀ call ∈ speak_text_calls synthFails text, call.text = removeAst text)
    ∧ (∀ pre mid post : Chars, '*' ∉ mid →
        removeAst text ≠ pre ++ '*' :: (mid ++ '*' :: post)) := by
  refine ⟨?_, ?_, ?_⟩
  · intro h
    simp [speak_text_calls, h]
  · intro call hc
    by_cases h : pystrip (removeAst text) = []
    · simp [speak_text_calls, h] at hc
    · simp [speak_text_calls, h] at hc
      rw [hc]
  · intro pre mid post hmid heq
    have hcount := removeAst_count text
    rw [heq] at hcount
    rw [List.count_append, List.count_cons, List.count_append, List.count_cons] at hcount
    have hmid0 : mid.count '*' = 0 := List.count_eq_zero.mpr hmid
    simp at hcount
    omega

/-- Witness for claim C10: the chunk consisting only of the asterisk
section *hi* is cleaned to the empty text and skipped with no synthesis
call. -/
theorem c10_asterisk_cleaning_witness :
    speak_text_calls (fun _ => true) (("*hi*").toList) = [] :=
  (c10_asterisk_cleaning (fun _ => true) (("*hi*").toList)).1 (by decide)

/-- The fixed apology utterance of invoke_bedrock (bedrock_service.py
line 84), built around an explicit apostrophe character (code 39). -/
def apologyText : Chars :=
  'I' :: Char.ofNat 39 :: ("m sorry, a communication error occurred.").toList

/-- Synthesis requests of the chunk loop of invoke_bedrock
(bedrock_service.py lines 67-73): each consumed chunk that is nonempty
and does not strip to empty is handed to speak_text. -/
def spokenSynthCalls (synthFails : Chars → Bool) : List Chars → List SynthCall
  | [] => []
  | c :: cs =>
    (if c ≠ [] ∧ pystrip c ≠ [] then speak_text_calls synthFails c else [])
      ++ spokenSynthCalls synthFails cs

/-- Possible outcomes of one response turn: the generation stream ends
normally, the generation stream raises an error (after the given
fragments), or the turn task receives an external cancellation after
some number of chunks. -/
inductive TurnOutcome
  | normal
  | genError
  | cancelled (afterChunks : ℕ)
deriving DecidableEq

/-- Observable result of one response turn: the synthesis requests made,
in order, and the final shared state. -/
structure TurnResult where
  synthCalls : List SynthCall
  finalState : AppState
deriving DecidableEq

/-- BedrockService.invoke_bedrock (bedrock_service.py lines 55-90):
start bot speech; consume the chunk stream, speaking each chunk unless
interrupted; a generation error propagates out of the chunk generator
before its flush and, when the turn was not interrupted, one fixed
apology is spoken; an external cancellation stops the chunk loop and is
not answered with an apology; the finally block always stops bot
speech.  The interrupted flag models the value the shared state reports
during this run; synthesis errors are already swallowed inside
speak_text and never reach the apology branch. -/
def invoke_bedrock (synthFails : Chars → Bool) (interrupted : Bool)
    (frags : List Chars) (outcome : TurnOutcome) (app : AppState) : TurnResult :=
  let app1 := AppState.start_bot_speech app
  let chunks : List Chars :=
    match outcome with
    | TurnOutcome.genError => (genRun interrupted [] frags).1
    | _ => toChunkGenerator interrupted frags
  let consumed : List Chars :=
    match outcome with
    | TurnOutcome.cancelled n => chunks.take n
    | _ => chunks
  let spoken := if interrupted then [] else spokenSynthCalls synthFails consumed
  let apology :=
    match outcome with
    | TurnOutcome.genError =>
      if interrupted then [] else speak_text_calls synthFails apologyText
    | _ => []
  let app2 := if interrupted then { app1 with interrupt_event := true } else app1
  { synthCalls := spoken ++ apology,
    finalState := AppState.stop_bot_speech app2 }

/-- Claim C8: every invocation of a response turn, on every outcome --
normal completion, interruption, external cancellation or generation
error -- runs the finally block calling stop_bot_speech, leaving the
speaking flag false. -/
theorem c8_always_stop_speaking (synthFails : Chars → Bool)
    (interrupted : Bool) (frags : List Chars) (outcome : TurnOutcome)
    (app : AppState) :
    (invoke_bedrock synthFails interrupted frags outcome app).finalState._is_bot_speaking
      = false
    ∧ (invoke_bedrock synthFails interrupted frags outcome app).finalState.interrupt_event
      = false := by
  exact ⟨rfl, rfl⟩

theorem removeAst_apology : removeAst apologyText = apologyText := by
  decide

theorem speak_text_calls_apology (synthFails : Chars → Bool) :
    speak_text_calls synthFails apologyText
      = [{ text := apologyText, ok := !synthFails apologyText }] := by
  unfold speak_text_calls
  rw [removeAst_apology]
  rw [if_neg (by decide)]

theorem spokenSynthCalls_texts (synthFails : Chars → Bool) :
    ∀ (chunks : List Chars) (t : Chars),
      t ∈ (spokenSynthCalls synthFails chunks).map SynthCall.text →
        ∃ c ∈ chunks, t = removeAst c := by
  intro chunks
  induction chunks with
  | nil => intro t ht; simp [spokenSynthCalls] at ht
  | cons c cs ih =>
    intro t ht
    simp only [spokenSynthCalls, List.map_append, List.mem_append] at ht
    rcases ht with h1 | h2
    · by_cases hg : c ≠ [] ∧ pystrip c ≠ []
      · rw [if_pos hg] at h1
        by_cases hp : pystrip (removeAst c) = []
        · simp [speak_text_calls, hp] at h1
        · simp [speak_text_calls, hp] at h1
          exact ⟨c, List.mem_cons_self c cs, h1⟩
      · rw [if_neg hg] at h1
        simp at h1
    · obtain ⟨c', hc', ht'⟩ := ih t h2
      exact ⟨c', List.mem_cons_of_mem c hc', ht'⟩

/-- Claim C2 (amended): when the generation stream raises an error during
a turn and the turn was not interrupted, the fixed apology is submitted
to speech synthesis exactly once, as the final synthesis request of the
turn, and afterwards the speaking flag is false; an error raised by the
speech-synthesis collaborator itself is caught inside speak_text, the
chunk is skipped, and no apology is triggered. -/
theorem c2_generation_error_apology (synthFails : Chars → Bool)
    (frags : List Chars) (app : AppState)
    (hecho : ∀ c ∈ (genRun false [] frags).1, removeAst c ≠ apologyText) :
    ((invoke_bedrock synthFails false frags TurnOutcome.genError app).synthCalls.map
        SynthCall.text).count apologyText = 1
    ∧ ((invoke_bedrock synthFails false frags TurnOutcome.genError app).synthCalls.map
        SynthCall.text).getLast? = some apologyText
    ∧ (invoke_bedrock synthFails false frags TurnOutcome.genError app).finalState._is_bot_speaking
      = false := by
  have hcalls : (invoke_bedrock synthFails false frags TurnOutcome.genError app).synthCalls
      = spokenSynthCalls synthFails (genRun false [] frags).1
        ++ [{ text := apologyText, ok := !synthFails apologyText }] := by
    show spokenSynthCalls synthFails (genRun false [] frags).1
        ++ speak_text_calls synthFails apologyText = _
    rw [speak_text_calls_apology]
  have hnotmem : apologyText ∉
      (spokenSynthCalls synthFails (genRun false [] frags).1).map SynthCall.text := by
    intro hmem
    obtain ⟨c, hc, hct⟩ := spokenSynthCalls_texts synthFails _ apologyText hmem
    exact hecho c hc hct.symm
  refine ⟨?_, ?_, rfl⟩
  · rw [hcalls, List.map_append, List.count_append]
    rw [List.count_eq_zero.mpr hnotmem]
    rfl
  · rw [hcalls, List.map_append]
    simp

/-- Witness for claim C2 (amended) at the concrete uninterrupted stream
"Hello." with a generation error at its end. -/
theorem c2_generation_error_apology_witness :
    (∀ c ∈ (genRun false [] [("Hello.").toList]).1, removeAst c ≠ apologyText)
    ∧ ((invoke_bedrock (fun _ => false) false [("Hello.").toList]
          TurnOutcome.genError initialAppState).synthCalls.map
        SynthCall.text).count apologyText = 1 :=
  ⟨by decide,
   (c2_generation_error_apology (fun _ => false) [("Hello.").toList]
      initialAppState (by decide)).1⟩

/-- Counterexample to claim C2 as stated: a run in which the
speech-synthesis collaborator raises an error on the only chunk of an
uninterrupted turn.  The error is swallowed inside speak_text, so no
apology chunk is synthesized at all: the synthesis requests are the
failed chunk and nothing else. -/
theorem c2_claim_counterexample :
    (∃ call ∈ (invoke_bedrock (fun _ => true) false [("Hello.").toList]
        TurnOutcome.normal initialAppState).synthCalls, call.ok = false)
    ∧ ((invoke_bedrock (fun _ => true) false [("Hello.").toList]
        TurnOutcome.normal initialAppState).synthCalls.map
          SynthCall.text).count apologyText = 0 := by
  decide

/-- Status of an asyncio task object held by the handler. -/
inductive TaskStatus
  | running
  | done
  | cancelled
deriving DecidableEq

/-- The handler-side session state touched by the barge-in branch: the
shared AppState, the bot response task, the transcription task, whether
the transcription stream object is live, and the transcribing flag.
A task field of none models the attribute holding None. -/
structure SessionState where
  app : AppState
  botTask : Option TaskStatus
  transcriptTask : Option TaskStatus
  streamOpen : Bool
  isTranscribing : Bool
deriving DecidableEq

/-- Actions the barge-in branch performs on collaborators. -/
inductive BargeAction
  | cancelBotTask
  | signalInterrupt
  | cancelTranscriptTask
  | endTranscribeStream
deriving DecidableEq

/-- The barge-in branch of the per-frame loop (websocket_handler.py
lines 74-84), taken when the bot is speaking and the frame classifies as
speech: cancel the live bot response task and signal the interrupt,
cancel the live transcription task, end the live transcription stream
and clear the transcription variables.  Returns the new state together
with the actions performed.  The branch itself never writes the speaking
flag: that write happens later, inside the cancelled turn task. -/
def bargeInStep (s : SessionState) : SessionState × List BargeAction :=
  let step1 :=
    match s.botTask with
    | some TaskStatus.running =>
      ({ s with botTask := some TaskStatus.cancelled, app := AppState.interrupt s.app },
        [BargeAction.cancelBotTask, BargeAction.signalInterrupt])
    | _ => (s, [])
  let step2 :=
    match step1.1.transcriptTask with
    | some TaskStatus.running =>
      ({ step1.1 with transcriptTask := some TaskStatus.cancelled },
        step1.2 ++ [BargeAction.cancelTranscriptTask])
    | _ => step1
  let step3 :=
    if step2.1.streamOpen then
      (step2.1, step2.2 ++ [BargeAction.endTranscribeStream])
    else step2
  ({ step3.1 with
      isTranscribing := false
      streamOpen := false
      transcriptTask := none }, step3.2)

/-- Cleanup the cancelled bot response task runs when the event loop
next schedules it (bedrock_service.py lines 75-90): the CancelledError
handler falls through to the finally block, which calls stop_bot_speech;
the coroutine then finishes. -/
def botTaskCancelledCleanup (s : SessionState) : SessionState :=
  { s with app := AppState.stop_bot_speech s.app, botTask := some TaskStatus.done }

/-- Concrete barge-in state: bot speaking, live response turn task, no
transcription in progress. -/
def bargeStateIdle : SessionState :=
  ⟨⟨true, false⟩, some TaskStatus.running, none, false, false⟩

/-- Concrete barge-in state: bot speaking, live response turn task, a
transcription session in progress. -/
def bargeStateTranscribing : SessionState :=
  ⟨⟨true, false⟩, some TaskStatus.running, some TaskStatus.running, true, true⟩

/-- Counterexample to claim C3 as stated: in a state where the bot is
speaking with a live response turn task and a speech frame arrives, the
barge-in branch leaves the speaking flag still true at the end of the
frame-processing step -- the branch contains no write to it. -/
theorem c3_claim_counterexample :
    bargeStateIdle.app._is_bot_speaking = true
    ∧ (bargeInStep bargeStateIdle).1.app._is_bot_speaking = true := by
  decide

/-- Claim C3 (amended): a barge-in step -- one frame processed while the
speaking flag is true, the classifier reports speech and the response
turn task is live -- results, within that same frame-processing step, in
the interrupt signal raised, the response turn task cancelled and the
transcription task, stream and flag cleared; the speaking flag becomes
false when the cancelled turn task subsequently runs its cleanup, whose
finally block calls stop_bot_speech, not within the frame-processing
step itself. -/
theorem c3_barge_in_effects (s : SessionState)
    (hspeak : s.app._is_bot_speaking = true)
    (htask : s.botTask = some TaskStatus.running) :
    (bargeInStep s).1.app.interrupt_event = true
    ∧ (bargeInStep s).1.botTask = some TaskStatus.cancelled
    ∧ BargeAction.cancelBotTask ∈ (bargeInStep s).2
    ∧ (bargeInStep s).1.isTranscribing = false
    ∧ (bargeInStep s).1.streamOpen = false
    ∧ (bargeInStep s).1.transcriptTask = none
    ∧ (bargeInStep s).1.app._is_bot_speaking = s.app._is_bot_speaking
    ∧ (botTaskCancelledCleanup (bargeInStep s).1).app._is_bot_speaking = false := by
  unfold bargeInStep
  rw [htask]
  have hint : AppState.interrupt s.app = { s.app with interrupt_event := true } := by
    unfold AppState.interrupt AppState.is_bot_speaking
    rw [if_pos hspeak]
  cases htr : s.transcriptTask with
  | none =>
    by_cases hstream : s.streamOpen <;>
      simp [htr, hstream, hint, botTaskCancelledCleanup, AppState.stop_bot_speech]
  | some ts =>
    cases ts <;>
      by_cases hstream : s.streamOpen <;>
        simp [htr, hstream, hint, botTaskCancelledCleanup, AppState.stop_bot_speech]

/-- Witness for claim C3 (amended) at a concrete barge-in state. -/
theorem c3_barge_in_effects_witness :
    (bargeInStep bargeStateTranscribing).1.app.interrupt_event = true
    ∧ (botTaskCancelledCleanup
        (bargeInStep bargeStateTranscribing).1).app._is_bot_speaking = false :=
  ⟨(c3_barge_in_effects bargeStateTranscribing rfl rfl).1,
   (c3_barge_in_effects bargeStateTranscribing rfl rfl).2.2.2.2.2.2.2⟩

/-- The fixed greeting transcript the handler submits on connection
(websocket_handler.py line 59). -/
def greetingText : String :=
  "User said hello."

/-- WebSocketHandler._handle_transcription (websocket_handler.py lines
52-56): when the final transcript is nonempty, a response turn task is
created for it; returns the text the task is launched with. -/
def handle_transcription (final_transcript : String) : Option String :=
  if final_transcript ≠ "" then some final_transcript else none

/-- Events of the connection handler, at the granularity that claim C9
concerns: launching a response turn task and receiving one inbound
chunk. -/
inductive HandlerEvent
  | launchTurn (text : String)
  | recvChunk (data : List ℕ)
deriving DecidableEq

/-- Event trace of handle_connection (websocket_handler.py lines
58-67): the greeting transcript is handed to _handle_transcription
before the loop over inbound chunks starts. -/
def handleConnectionTrace (inbound : List (List ℕ)) : List HandlerEvent :=
  (match handle_transcription greetingText with
    | some t => [HandlerEvent.launchTurn t]
    | none => []) ++ inbound.map HandlerEvent.recvChunk

/-- Claim C9: for every inbound chunk sequence, the connection handler
launches a response turn with the fixed text "User said hello." as its
first event, before any inbound audio is read. -/
theorem c9_initial_greeting_turn (inbound : List (List ℕ)) :
    handleConnectionTrace inbound
      = HandlerEvent.launchTurn greetingText :: inbound.map HandlerEvent.recvChunk
    ∧ handle_transcription greetingText = some greetingText := by
  constructor
  · rfl
  · rfl
